import Mathlib

/-!
Shallow embedding of the sim-ecs `World` scheduler core (src/src/world.spec.ts,
implementation part, and src/src/world-builder.ts).

System identities (the TS `system.constructor` values) are modelled as natural
numbers; component types and entities likewise carry natural-number identities.
JavaScript `Map`s are modelled as association lists with the insertion-order /
overwrite semantics of `Map`; exceptions are modelled with `Except`.
-/

namespace SimEcs

/-- A registered system node, mirroring `TSystemNode` (`world.spec.ts`):
the system's constructor identity plus its declared dependency list
(constructor identities of the systems it must run after). -/
structure SystemNode where
  id : Nat
  deps : List Nat
deriving DecidableEq, Repr

/-- The distinct `throw new Error(...)` sites of `World` / `WorldBuilder`,
named after the spec's error taxonomy. `duplicateSystem` is
"The system ... was already added to the world!", `cyclicDependency` is
"The system dependency graph is cyclic!", `notRegistered` is
"The system ... was not registered!" (the spec's UnresolvedDependencyReference),
`concurrentRunConflict` is "The dispatch loop is already running!". -/
inductive WorldError where
  | duplicateSystem (id : Nat)
  | cyclicDependency
  | notRegistered (id : Nat)
  | concurrentRunConflict
deriving DecidableEq, Repr

/-- A JS `Map` from system identity to its remaining dependency edges,
as an association list in insertion order. -/
abbrev Graph := List (Nat × List Nat)

/-- `Map.set` semantics: overwrite in place if the key exists (keeping its
original position), otherwise append at the end. -/
def mapSet (g : Graph) (k : Nat) (v : List Nat) : Graph :=
  if g.any (fun p => p.1 == k) then
    g.map (fun p => if p.1 == k then (k, v) else p)
  else
    g ++ [(k, v)]

/-- `new Map(unsorted.map(node => [node.system.constructor, Array.from(node.dependencies)]))`
from `World.sortSystems`. -/
def mkGraph (unsorted : List SystemNode) : Graph :=
  unsorted.foldl (fun g nd => mapSet g nd.id nd.deps) []

/-- One pass of the inner `for (let m of ...)` loop of `World.sortSystems`, the
edge-removal part: for every node whose edge list contains `n`, remove the first
occurrence of `n` (`edges.splice(edges.indexOf(n), 1)`). -/
def removeEdges (g : Graph) (n : Nat) : Graph :=
  g.map (fun p => if n ∈ p.2 then (p.1, p.2.erase n) else p)

/-- The nodes pushed onto `S` during the inner loop: those whose edge list
contains `n` and becomes empty once `n` is removed, in graph (insertion) order. -/
def newlyFree (g : Graph) (n : Nat) : List Nat :=
  (g.filter (fun p => n ∈ p.2 && (p.2.erase n).isEmpty)).map Prod.fst

/-- Total number of remaining edges in the graph. -/
def totalEdges (g : Graph) : Nat := (g.map (fun p => p.2.length)).sum

/-- The `while (S.length > 0)` loop of `World.sortSystems` (Kahn's algorithm):
shift a node `n` off the front of `S`, append it to `L`, remove the edges from
`n`, and push nodes whose edge lists became empty onto the back of `S`.
`fuel` is a structural-recursion bound; `totalEdges g + S.length` iterations
always suffice, and `sortSystems` calls the loop with exactly that budget. -/
def kahnLoop : Nat → Graph → List Nat → List Nat → Graph × List Nat
  | 0, g, _, L => (g, L)
  | _ + 1, g, [], L => (g, L)
  | fuel + 1, g, n :: S, L =>
      kahnLoop fuel (removeEdges g n) (S ++ newlyFree g n) (L ++ [n])

/-- The initialization of `S` in `World.sortSystems`: all nodes with no
incoming edge, in graph (insertion) order. -/
def initialQueue (graph : Graph) : List Nat :=
  (graph.filter (fun p => p.2.isEmpty)).map Prod.fst

/-- The whole `while` loop of `World.sortSystems`, run on a graph with its
initial queue and an empty output list, with an iteration budget that always
suffices. -/
def kahnRun (graph : Graph) : Graph × List Nat :=
  kahnLoop (totalEdges graph + (initialQueue graph).length) graph (initialQueue graph) []

/-- `World.sortSystems`: topological sort with Kahn's algorithm, failing with
the cyclic-dependency error when edges remain, then mapping the sorted
identities back to their registration records (failing with the
not-registered error when an identity has no record). -/
def sortSystems (unsorted : List SystemNode) : Except WorldError (List SystemNode) :=
  if (kahnRun (mkGraph unsorted)).1.any (fun p => !p.2.isEmpty) then
    Except.error WorldError.cyclicDependency
  else
    (kahnRun (mkGraph unsorted)).2.mapM (fun t =>
      match unsorted.find? (fun node => node.id == t) with
      | some node => Except.ok node
      | none => Except.error (WorldError.notRegistered t))

/-- An entity: identity plus attached component types (`entity.hasComponent`
checks membership). -/
structure Entity where
  eid : Nat
  components : List Nat
deriving DecidableEq, Repr

def Entity.hasComponent (e : Entity) (c : Nat) : Bool :=
  e.components.contains c

/-- `EComponentRequirement` from `system.spec.ts` (not under src/; the
constructors are modelled from the spec's Present/Absent taxonomy and the README
usage). `World.getEntities` only distinguishes `UNSET` (component must be
absent) from the access values (component must be present). -/
inductive EComponentRequirement where
  | READ
  | WRITE
  | UNSET
deriving DecidableEq, Repr

/-- `TComponentQuery`: a list of (component type, requirement) pairs. -/
abbrev TComponentQuery := List (Nat × EComponentRequirement)

/-- The entity filter of `World.getEntities`: an entity is skipped
(`continue entityLoop`) as soon as one requirement pair is violated, and kept
(pushed onto `resultEntities` in input order) otherwise. Passing no query
returns the entity list itself. -/
def getEntities (entities : List Entity) (withComponents : Option TComponentQuery) :
    List Entity :=
  match withComponents with
  | none => entities
  | some q =>
      entities.filter (fun entity =>
        !(q.any (fun componentRequirement =>
          (entity.hasComponent componentRequirement.1 &&
            componentRequirement.2 == EComponentRequirement.UNSET) ||
          (!entity.hasComponent componentRequirement.1 &&
            componentRequirement.2 != EComponentRequirement.UNSET))))

/-- One entry of `World.runSystems`: a system together with the
`hasDependencies` flag computed by `changeRunningState`
(`system.dependencies.length > 0`). -/
structure RunSystem where
  id : Nat
  hasDependencies : Bool
deriving DecidableEq, Repr

/-- The first block of `World.getScheduledRunSystems`: the `depScheduler`
accumulation.  `closed` holds the groups before the `step` cursor, `cur` is
`depScheduler[step]`.  A dependency-free system is pushed onto the current
group; a system with dependencies first closes a non-empty current group, is
pushed into a fresh group, and closes that group too.  The returned list is the
final `depScheduler` array (including the trailing empty group the code leaves
at `depScheduler[step]`). -/
def depScheduleLoop : List RunSystem → List (List Nat) → List Nat → List (List Nat)
  | [], closed, cur => closed ++ [cur]
  | system :: rest, closed, cur =>
      if system.hasDependencies then
        if cur.isEmpty then
          depScheduleLoop rest (closed ++ [[system.id]]) []
        else
          depScheduleLoop rest (closed ++ [cur] ++ [[system.id]]) []
      else
        depScheduleLoop rest closed (cur ++ [system.id])

def depSchedule (runSystems : List RunSystem) : List (List Nat) :=
  depScheduleLoop runSystems [] []

/-- `World.getScheduledRunSystems`: computes `depScheduler`, then iterates over
its groups with an empty loop body (the component-conflict pass is only present
as comments in the source), and returns `compScheduler` — which is never
written to. -/
def getScheduledRunSystems (runSystems : List RunSystem) : List (List Nat) :=
  let _depScheduler := depSchedule runSystems
  let compScheduler : List (List Nat) := []
  compScheduler

/-- The `World` state components the verified operations touch. `entities` is
the entity array, `defaultStateSystems` the identities held by
`defaultState.systems`, `sortedSystems` the cached sorted schedule,
`runPromiseActive` models `runPromise !== undefined`, and `shouldRunSystems` the
stop flag polled by the dispatch loop. -/
structure World where
  entities : List Entity
  defaultStateSystems : List Nat
  sortedSystems : List SystemNode
  runPromiseActive : Bool
  shouldRunSystems : Bool
deriving DecidableEq, Repr

/-- `World.addEntity`: push the entity only if the array does not already
include it. -/
def addEntity (w : World) (entity : Entity) : World :=
  if w.entities.contains entity then w
  else { w with entities := w.entities ++ [entity] }

/-- `World.registerSystemQuick`: reject a system whose constructor already has
a node in `sortedSystems`, otherwise push it onto the default state's system
list and onto `sortedSystems` with its declared dependencies
(`dependencies || []`). -/
def registerSystemQuick (w : World) (sysId : Nat) (dependencies : List Nat) :
    Except WorldError World :=
  if (w.sortedSystems.find? (fun node => node.id == sysId)).isSome then
    Except.error (WorldError.duplicateSystem sysId)
  else
    Except.ok { w with
      defaultStateSystems := w.defaultStateSystems ++ [sysId],
      sortedSystems := w.sortedSystems ++ [⟨sysId, dependencies⟩] }

/-- The world observed by the caller after `registerSystemQuick` returns or
throws: a thrown JS exception leaves `this` as it was (the duplicate check
precedes every mutation). -/
def registerSystemQuickRun (w : World) (sysId : Nat) (dependencies : List Nat) :
    World :=
  match registerSystemQuick w sysId dependencies with
  | Except.ok w2 => w2
  | Except.error _ => w

/-- `World.maintain`, restricted to the schedule: `this.sortedSystems =
this.sortSystems(this.sortedSystems)`. When `sortSystems` throws, the exception
propagates before the assignment (and before the entity-cache loop), so the
world is returned unchanged together with the error. -/
def maintain (w : World) : World × Option WorldError :=
  match sortSystems w.sortedSystems with
  | Except.ok l => ({ w with sortedSystems := l }, none)
  | Except.error e => (w, some e)

/-- `World.run`, entry check and flag setup: throw the concurrent-run error if
`runPromise` is already set, otherwise create the run promise and raise
`shouldRunSystems`. (The wall-clock bookkeeping and the scheduled group
execution inside `mainLoop` are not part of the entry check.) -/
def run (w : World) : Except WorldError World :=
  if w.runPromiseActive then
    Except.error WorldError.concurrentRunConflict
  else
    Except.ok { w with runPromiseActive := true, shouldRunSystems := true }

/-- `World.stopRun`: lower `shouldRunSystems`; the loop itself observes the
flag later. -/
def stopRun (w : World) : World :=
  { w with shouldRunSystems := false }

/-- One iteration of `mainLoop` inside `World.run`: the stop flag is polled at
iteration entry; if it is down the run promise is cleared and resolved and no
group is started; otherwise the full list of scheduled groups is executed (each
group awaited before the next) and another iteration is scheduled. The second
component reports the groups executed by this iteration (`none` when the loop
exits without starting a step). -/
def mainLoopIter (w : World) (scheduledSystems : List (List Nat)) :
    World × Option (List (List Nat)) :=
  if !w.shouldRunSystems then
    ({ w with runPromiseActive := false }, none)
  else
    (w, some scheduledSystems)

/-- The spec's per-pair satisfaction relation, stated over the code's
requirement type: `UNSET` demands absence, the access values (`READ`/`WRITE`)
demand presence. A component type not mentioned in the query (the spec's
Irrelevant) imposes no pair at all. -/
def requirementSatisfied (e : Entity) (p : Nat × EComponentRequirement) : Prop :=
  match p.2 with
  | EComponentRequirement.UNSET => ¬ e.hasComponent p.1 = true
  | EComponentRequirement.READ => e.hasComponent p.1 = true
  | EComponentRequirement.WRITE => e.hasComponent p.1 = true

/-- The dependency list a graph holds for identity `m` (`graph.get(m)` on a JS
`Map`, defaulting to no edges for an absent key). -/
def lookupDeps (orig : Graph) (m : Nat) : List Nat :=
  match orig.find? (fun p => p.1 == m) with
  | some p => p.2
  | none => []

/-- The association list `mkGraph` produces when no two nodes share a
constructor identity: one (identity, dependency list) pair per node, in
registration order. -/
def origOf (nodes : List SystemNode) : Graph :=
  nodes.map (fun nd => (nd.id, nd.deps))

/-- The registration record a sorted identity is mapped back to at the end of
`sortSystems` (the `unsorted.find(...)` lookup; the default is irrelevant and
never reached for identities that occur in the graph). -/
def nodeOf (nodes : List SystemNode) (t : Nat) : SystemNode :=
  match nodes.find? (fun node => node.id == t) with
  | some node => node
  | none => ⟨t, []⟩

/-- The declared dependency relation: `edgeRel nodes d m` holds when some
registered node with identity `m` declares a dependency on identity `d`
(so `d` must run before `m`). -/
def edgeRel (nodes : List SystemNode) (d m : Nat) : Prop :=
  ∃ nd ∈ nodes, nd.id = m ∧ d ∈ nd.deps

/-- The loop invariant of Kahn's algorithm as implemented by `sortSystems`.
`orig` is the immutable initial graph, `g` the current graph (same keys,
shrunken edge lists), `S` the pending queue, `L` the emitted order. -/
structure KahnInv (orig g : Graph) (S L : List Nat) : Prop where
  keys : g.map Prod.fst = orig.map Prod.fst
  cur_sub : ∀ p ∈ g, ∀ d ∈ p.2, d ∈ lookupDeps orig p.1
  orig_cov : ∀ p ∈ g, ∀ d ∈ lookupDeps orig p.1, d ∈ p.2 ∨ d ∈ L
  queued_empty : ∀ m ∈ S, (m, ([] : List Nat)) ∈ g
  popped_empty : ∀ m ∈ L, (m, ([] : List Nat)) ∈ g
  empty_queued : ∀ p ∈ g, p.2 = [] → p.1 ∈ L ∨ p.1 ∈ S
  nodupLS : (L ++ S).Nodup
  pw : L.Pairwise (fun a b => b ∉ lookupDeps orig a)
  nself : ∀ m ∈ L, m ∉ lookupDeps orig m

/-- A second invariant, available when every declared dependency list is
duplicate-free: current edge lists stay duplicate-free, and an edge to an
already-emitted node has always been removed. -/
def EdgesNodupInv (g : Graph) (L : List Nat) : Prop :=
  (∀ p ∈ g, p.2.Nodup) ∧ ∀ p ∈ g, ∀ d ∈ p.2, d ∉ L

theorem totalEdges_cons (p : Nat × List Nat) (g : Graph) :
    totalEdges (p :: g) = p.2.length + totalEdges g := by
  simp [totalEdges]

theorem totalEdges_removeEdges_add_newlyFree (g : Graph) (n : Nat) :
    totalEdges (removeEdges g n) + (newlyFree g n).length ≤ totalEdges g := by
  induction g with
  | nil => simp [removeEdges, newlyFree, totalEdges]
  | cons p g ih =>
    by_cases hmem : n ∈ p.2
    · have h1 : totalEdges (removeEdges (p :: g) n) =
          (p.2.erase n).length + totalEdges (removeEdges g n) := by
        simp [removeEdges, totalEdges, hmem]
      have h4 : (p.2.erase n).length = p.2.length - 1 :=
        List.length_erase_of_mem hmem
      have h5 : 0 < p.2.length := List.length_pos.mpr (List.ne_nil_of_mem hmem)
      have h3 : totalEdges (p :: g) = p.2.length + totalEdges g := totalEdges_cons p g
      by_cases hemp : (p.2.erase n).isEmpty
      · have h2 : (newlyFree (p :: g) n).length = 1 + (newlyFree g n).length := by
          simp [newlyFree, List.filter_cons, hmem, hemp]
          omega
        omega
      · have h2 : (newlyFree (p :: g) n).length = (newlyFree g n).length := by
          simp [newlyFree, List.filter_cons, hmem, hemp]
        omega
    · have h1 : totalEdges (removeEdges (p :: g) n) =
          p.2.length + totalEdges (removeEdges g n) := by
        simp [removeEdges, totalEdges, hmem]
      have h2 : (newlyFree (p :: g) n).length = (newlyFree g n).length := by
        simp [newlyFree, List.filter_cons, hmem]
      have h3 : totalEdges (p :: g) = p.2.length + totalEdges g := totalEdges_cons p g
      omega

theorem removeEdges_eq_map (g : Graph) (n : Nat) :
    removeEdges g n = g.map (fun p => (p.1, p.2.erase n)) := by
  unfold removeEdges
  apply List.map_congr_left
  intro p _
  by_cases h : n ∈ p.2
  · simp [h]
  · simp [h, List.erase_of_not_mem h]

theorem removeEdges_keys (g : Graph) (n : Nat) :
    (removeEdges g n).map Prod.fst = g.map Prod.fst := by
  rw [removeEdges_eq_map, List.map_map]
  exact List.map_congr_left fun p _ => rfl

theorem mem_removeEdges {g : Graph} {m : Nat} {es : List Nat} (n : Nat)
    (h : (m, es) ∈ g) : (m, es.erase n) ∈ removeEdges g n := by
  rw [removeEdges_eq_map]
  exact List.mem_map_of_mem _ h

theorem removeEdges_mem {g : Graph} {n : Nat} {p' : Nat × List Nat}
    (h : p' ∈ removeEdges g n) : ∃ p ∈ g, p' = (p.1, p.2.erase n) := by
  rw [removeEdges_eq_map] at h
  obtain ⟨p, hp, hpe⟩ := List.mem_map.mp h
  exact ⟨p, hp, hpe.symm⟩

theorem mem_newlyFree {g : Graph} {n m : Nat} :
    m ∈ newlyFree g n ↔ ∃ es, (m, es) ∈ g ∧ n ∈ es ∧ es.erase n = [] := by
  unfold newlyFree
  constructor
  · intro h
    obtain ⟨p, hp, hm⟩ := List.mem_map.mp h
    obtain ⟨hpg, hcond⟩ := List.mem_filter.mp hp
    have hcond2 : n ∈ p.2 ∧ p.2.erase n = [] := by
      simpa [List.isEmpty_iff] using hcond
    refine ⟨p.2, ?_, hcond2.1, hcond2.2⟩
    rw [← hm]
    simpa using hpg
  · rintro ⟨es, hes, hn, he⟩
    apply List.mem_map.mpr
    refine ⟨(m, es), List.mem_filter.mpr ⟨hes, ?_⟩, rfl⟩
    simp [hn, he]

theorem newlyFree_nodup {g : Graph} (hgk : (g.map Prod.fst).Nodup) (n : Nat) :
    (newlyFree g n).Nodup := by
  unfold newlyFree
  exact List.Nodup.sublist ((List.filter_sublist g).map Prod.fst) hgk

theorem keyval_unique {g : Graph} (hk : (g.map Prod.fst).Nodup) {k : Nat}
    {v1 v2 : List Nat} (h1 : (k, v1) ∈ g) (h2 : (k, v2) ∈ g) : v1 = v2 := by
  induction g with
  | nil => cases h1
  | cons p g ih =>
    simp only [List.map_cons, List.nodup_cons] at hk
    rcases List.mem_cons.mp h1 with h1 | h1 <;> rcases List.mem_cons.mp h2 with h2 | h2
    · rw [← h1] at h2
      injection h2 with _ hv
      exact hv.symm
    · exfalso
      apply hk.1
      rw [← h1]
      exact List.mem_map.mpr ⟨(k, v2), h2, rfl⟩
    · exfalso
      apply hk.1
      rw [← h2]
      exact List.mem_map.mpr ⟨(k, v1), h1, rfl⟩
    · exact ih hk.2 h1 h2

theorem lookupDeps_eq {orig : Graph} (hk : (orig.map Prod.fst).Nodup)
    {p : Nat × List Nat} (hp : p ∈ orig) : lookupDeps orig p.1 = p.2 := by
  unfold lookupDeps
  have hs : (orig.find? (fun q => q.1 == p.1)).isSome := by
    rw [List.find?_isSome]
    exact ⟨p, hp, by simp⟩
  obtain ⟨q, hq⟩ := Option.isSome_iff_exists.mp hs
  rw [hq]
  have hqmem : q ∈ orig := List.mem_of_find?_eq_some hq
  have hqkey : q.1 = p.1 := by simpa using List.find?_some hq
  have h1 : (p.1, q.2) ∈ orig := by
    rw [← hqkey]
    simpa using hqmem
  have h2 : (p.1, p.2) ∈ orig := by simpa using hp
  exact keyval_unique hk h1 h2

theorem exists_val_of_key_mem {g : Graph} {k : Nat} (h : k ∈ g.map Prod.fst) :
    ∃ v, (k, v) ∈ g := by
  obtain ⟨p, hp, he⟩ := List.mem_map.mp h
  refine ⟨p.2, ?_⟩
  rw [← he]
  simpa using hp

theorem kahnInv_init (orig : Graph) (hk : (orig.map Prod.fst).Nodup) :
    KahnInv orig orig (initialQueue orig) [] := by
  constructor
  case keys => rfl
  case cur_sub =>
    intro p hp d hd
    rw [lookupDeps_eq hk hp]
    exact hd
  case orig_cov =>
    intro p hp d hd
    left
    rwa [lookupDeps_eq hk hp] at hd
  case queued_empty =>
    intro m hm
    obtain ⟨p, hp, he⟩ := List.mem_map.mp hm
    obtain ⟨hpg, hcond⟩ := List.mem_filter.mp hp
    have h2 : p.2 = [] := by simpa [List.isEmpty_iff] using hcond
    rw [← he, ← h2]
    simpa using hpg
  case popped_empty =>
    intro m hm
    cases hm
  case empty_queued =>
    intro p hp h2
    right
    exact List.mem_map.mpr ⟨p, List.mem_filter.mpr ⟨hp, by simp [h2]⟩, rfl⟩
  case nodupLS =>
    simp only [List.nil_append]
    exact List.Nodup.sublist ((List.filter_sublist orig).map Prod.fst) hk
  case pw => exact List.Pairwise.nil
  case nself =>
    intro m hm
    cases hm

theorem kahnInv_step (orig : Graph) (hk : (orig.map Prod.fst).Nodup)
    (g : Graph) (n : Nat) (S L : List Nat)
    (inv : KahnInv orig g (n :: S) L) :
    KahnInv orig (removeEdges g n) (S ++ newlyFree g n) (L ++ [n]) := by
  have hgk : (g.map Prod.fst).Nodup := by rw [inv.keys]; exact hk
  have hnq : (n, ([] : List Nat)) ∈ g := inv.queued_empty n (List.mem_cons_self n S)
  have hnodup := inv.nodupLS
  have hnL : n ∉ L := by
    intro h
    rcases List.nodup_append.mp hnodup with ⟨_, _, hdis⟩
    exact hdis h (List.mem_cons_self n S)
  have hLsub : ∀ a ∈ L, ∀ d ∈ lookupDeps orig a, d ∈ L := by
    intro a ha d hd
    have hpa := inv.popped_empty a ha
    rcases inv.orig_cov (a, []) hpa d hd with h | h
    · cases h
    · exact h
  constructor
  case keys =>
    rw [removeEdges_keys]
    exact inv.keys
  case cur_sub =>
    intro p' hp' d hd
    obtain ⟨p, hp, he⟩ := removeEdges_mem hp'
    subst he
    exact inv.cur_sub p hp d (List.mem_of_mem_erase hd)
  case orig_cov =>
    intro p' hp' d hd
    obtain ⟨p, hp, he⟩ := removeEdges_mem hp'
    subst he
    rcases inv.orig_cov p hp d hd with h | h
    · by_cases hdn : d = n
      · subst hdn
        right
        exact List.mem_append.mpr (Or.inr (by simp))
      · left
        exact (List.mem_erase_of_ne hdn).mpr h
    · right
      exact List.mem_append.mpr (Or.inl h)
  case queued_empty =>
    intro m hm
    rcases List.mem_append.mp hm with h | h
    · have hg := inv.queued_empty m (List.mem_cons_of_mem n h)
      simpa using mem_removeEdges n hg
    · obtain ⟨es, hes, _, hemp⟩ := mem_newlyFree.mp h
      have := mem_removeEdges n hes
      rwa [hemp] at this
  case popped_empty =>
    intro m hm
    rcases List.mem_append.mp hm with h | h
    · simpa using mem_removeEdges n (inv.popped_empty m h)
    · have hmn : m = n := by simpa using h
      rw [hmn]
      simpa using mem_removeEdges n hnq
  case empty_queued =>
    intro p' hp' hem
    obtain ⟨p, hp, he⟩ := removeEdges_mem hp'
    subst he
    simp only at hem
    by_cases hpe : p.2 = []
    · rcases inv.empty_queued p hp hpe with h | h
      · left
        exact List.mem_append.mpr (Or.inl h)
      · rcases List.mem_cons.mp h with h | h
        · left
          exact List.mem_append.mpr (Or.inr (by simp [h]))
        · right
          exact List.mem_append.mpr (Or.inl h)
    · right
      apply List.mem_append.mpr
      refine Or.inr (mem_newlyFree.mpr ⟨p.2, by simpa using hp, ?_, hem⟩)
      by_contra hnn
      rw [List.erase_of_not_mem hnn] at hem
      exact hpe hem
  case nodupLS =>
    have hXF : ((L ++ n :: S) ++ newlyFree g n).Nodup := by
      rw [List.nodup_append]
      refine ⟨hnodup, newlyFree_nodup hgk n, ?_⟩
      intro a ha hb
      obtain ⟨es, hes, hnes, _⟩ := mem_newlyFree.mp hb
      have hae : (a, ([] : List Nat)) ∈ g := by
        rcases List.mem_append.mp ha with h | h
        · exact inv.popped_empty a h
        · exact inv.queued_empty a h
      have hese : es = [] := keyval_unique hgk hes hae
      rw [hese] at hnes
      cases hnes
    have heq : (L ++ [n]) ++ (S ++ newlyFree g n) = (L ++ n :: S) ++ newlyFree g n := by
      simp
    rw [heq]
    exact hXF
  case pw =>
    rw [List.pairwise_append]
    refine ⟨inv.pw, List.pairwise_singleton _ _, ?_⟩
    intro a ha b hb
    have hbn : b = n := by simpa using hb
    rw [hbn]
    intro hcontra
    exact hnL (hLsub a ha n hcontra)
  case nself =>
    intro m hm
    rcases List.mem_append.mp hm with h | h
    · exact inv.nself m h
    · have hmn : m = n := by simpa using h
      rw [hmn]
      intro hc
      rcases inv.orig_cov (n, []) hnq n hc with h' | h'
      · cases h'
      · exact hnL h'

theorem edgesNodupInv_step {g : Graph} {n : Nat} {L : List Nat}
    (inv : EdgesNodupInv g L) :
    EdgesNodupInv (removeEdges g n) (L ++ [n]) := by
  obtain ⟨hnd, hun⟩ := inv
  constructor
  · intro p' hp'
    obtain ⟨p, hp, he⟩ := removeEdges_mem hp'
    subst he
    exact (hnd p hp).erase n
  · intro p' hp' d hd
    obtain ⟨p, hp, he⟩ := removeEdges_mem hp'
    subst he
    have hde : d ≠ n ∧ d ∈ p.2 := ((hnd p hp).mem_erase_iff).mp hd
    intro hcon
    rcases List.mem_append.mp hcon with h | h
    · exact hun p hp d hde.2 h
    · exact hde.1 (by simpa using h)

theorem kahnLoop_inv (orig : Graph) (hk : (orig.map Prod.fst).Nodup) :
    ∀ (fuel : Nat) (g : Graph) (S L : List Nat),
      totalEdges g + S.length ≤ fuel →
      KahnInv orig g S L →
      KahnInv orig (kahnLoop fuel g S L).1 [] (kahnLoop fuel g S L).2 ∧
      ∃ ext, (kahnLoop fuel g S L).2 = (L ++ S) ++ ext := by
  intro fuel
  induction fuel with
  | zero =>
    intro g S L hf inv
    have hS : S = [] := by
      cases S with
      | nil => rfl
      | cons a S =>
        exfalso
        simp only [List.length_cons] at hf
        omega
    subst hS
    exact ⟨inv, [], by simp [kahnLoop]⟩
  | succ fuel ih =>
    intro g S L hf inv
    cases S with
    | nil =>
      exact ⟨inv, [], by simp [kahnLoop]⟩
    | cons n S =>
      have hstep := kahnInv_step orig hk g n S L inv
      have hbound := totalEdges_removeEdges_add_newlyFree g n
      have hf2 : totalEdges (removeEdges g n) + (S ++ newlyFree g n).length ≤ fuel := by
        simp only [List.length_append, List.length_cons] at hf ⊢
        omega
      obtain ⟨hinv, ext, hext⟩ := ih (removeEdges g n) (S ++ newlyFree g n) (L ++ [n]) hf2 hstep
      have hkl : kahnLoop (fuel + 1) g (n :: S) L =
          kahnLoop fuel (removeEdges g n) (S ++ newlyFree g n) (L ++ [n]) := rfl
      rw [hkl]
      refine ⟨hinv, newlyFree g n ++ ext, ?_⟩
      rw [hext]
      simp

theorem kahnLoop_edges :
    ∀ (fuel : Nat) (g : Graph) (S L : List Nat), EdgesNodupInv g L →
      EdgesNodupInv (kahnLoop fuel g S L).1 (kahnLoop fuel g S L).2 := by
  intro fuel
  induction fuel with
  | zero =>
    intro g S L inv
    exact inv
  | succ fuel ih =>
    intro g S L inv
    cases S with
    | nil => exact inv
    | cons n S => exact ih _ _ _ (edgesNodupInv_step inv)

theorem kahnRun_inv (orig : Graph) (hk : (orig.map Prod.fst).Nodup) :
    KahnInv orig (kahnRun orig).1 [] (kahnRun orig).2 ∧
    ∃ ext, (kahnRun orig).2 = initialQueue orig ++ ext := by
  have h := kahnLoop_inv orig hk (totalEdges orig + (initialQueue orig).length)
      orig (initialQueue orig) [] (le_refl _) (kahnInv_init orig hk)
  simpa [kahnRun] using h

theorem kahnRun_edges (orig : Graph) (hd : ∀ p ∈ orig, p.2.Nodup) :
    EdgesNodupInv (kahnRun orig).1 (kahnRun orig).2 :=
  kahnLoop_edges _ _ _ _ ⟨hd, fun _ _ d _ h => absurd h (List.not_mem_nil d)⟩

theorem mapSet_of_not_mem {g : Graph} {k : Nat} (v : List Nat)
    (h : ∀ p ∈ g, p.1 ≠ k) : mapSet g k v = g ++ [(k, v)] := by
  have hany : g.any (fun p => p.1 == k) = false := by
    rw [List.any_eq_false]
    intro p hp
    simp [h p hp]
  simp [mapSet, hany]

theorem foldl_mapSet_eq (nodes : List SystemNode) :
    ∀ acc : Graph,
      (∀ nd ∈ nodes, ∀ p ∈ acc, p.1 ≠ nd.id) →
      (nodes.map SystemNode.id).Nodup →
      nodes.foldl (fun g nd => mapSet g nd.id nd.deps) acc = acc ++ origOf nodes := by
  induction nodes with
  | nil =>
    intro acc _ _
    simp [origOf]
  | cons nd nodes ih =>
    intro acc hacc hnodup
    simp only [List.foldl_cons]
    have h1 : mapSet acc nd.id nd.deps = acc ++ [(nd.id, nd.deps)] :=
      mapSet_of_not_mem _ (fun p hp => hacc nd (List.mem_cons_self _ _) p hp)
    rw [h1]
    simp only [List.map_cons, List.nodup_cons] at hnodup
    obtain ⟨hnid, hndup⟩ := hnodup
    have h2 : ∀ m ∈ nodes, ∀ p ∈ acc ++ [(nd.id, nd.deps)], p.1 ≠ m.id := by
      intro m hm p hp
      rcases List.mem_append.mp hp with h | h
      · exact hacc m (List.mem_cons_of_mem _ hm) p h
      · have hpe : p = (nd.id, nd.deps) := by simpa using h
        rw [hpe]
        intro hcon
        apply hnid
        have hcon2 : nd.id = m.id := hcon
        rw [hcon2]
        exact List.mem_map_of_mem _ hm
    rw [ih (acc ++ [(nd.id, nd.deps)]) h2 hndup]
    simp [origOf]

theorem mkGraph_eq {nodes : List SystemNode}
    (hids : (nodes.map SystemNode.id).Nodup) :
    mkGraph nodes = origOf nodes := by
  unfold mkGraph
  rw [foldl_mapSet_eq nodes [] (fun _ _ p hp => absurd hp (List.not_mem_nil p)) hids]
  simp

theorem origOf_keys (nodes : List SystemNode) :
    (origOf nodes).map Prod.fst = nodes.map SystemNode.id := by
  unfold origOf
  rw [List.map_map]
  exact List.map_congr_left fun nd _ => rfl

theorem origOf_keys_nodup {nodes : List SystemNode}
    (hids : (nodes.map SystemNode.id).Nodup) :
    ((origOf nodes).map Prod.fst).Nodup := by
  rw [origOf_keys]
  exact hids

theorem find?_eq_of_nodup {nodes : List SystemNode}
    (hids : (nodes.map SystemNode.id).Nodup)
    {nd : SystemNode} (hnd : nd ∈ nodes) :
    nodes.find? (fun x => x.id == nd.id) = some nd := by
  induction nodes with
  | nil => cases hnd
  | cons m nodes ih =>
    simp only [List.map_cons, List.nodup_cons] at hids
    rcases List.mem_cons.mp hnd with h | h
    · rw [h]
      exact List.find?_cons_of_pos _ (by simp)
    · have hne2 : (m.id == nd.id) = false := by
        rw [beq_eq_false_iff_ne]
        intro hcon
        exact hids.1 (hcon ▸ List.mem_map_of_mem _ h)
      simp only [List.find?, hne2]
      exact ih hids.2 h

theorem nodeOf_eq {nodes : List SystemNode}
    (hids : (nodes.map SystemNode.id).Nodup)
    {nd : SystemNode} (hnd : nd ∈ nodes) : nodeOf nodes nd.id = nd := by
  unfold nodeOf
  rw [find?_eq_of_nodup hids hnd]

theorem nodeOf_mem {nodes : List SystemNode} {t : Nat}
    (ht : t ∈ nodes.map SystemNode.id) :
    (nodeOf nodes t).id = t ∧ nodeOf nodes t ∈ nodes := by
  unfold nodeOf
  have hs : (nodes.find? (fun x => x.id == t)).isSome := by
    rw [List.find?_isSome]
    obtain ⟨nd, hnd, he⟩ := List.mem_map.mp ht
    exact ⟨nd, hnd, by simp [he]⟩
  obtain ⟨nd, hnd⟩ := Option.isSome_iff_exists.mp hs
  rw [hnd]
  exact ⟨by simpa using List.find?_some hnd, List.mem_of_find?_eq_some hnd⟩

theorem nodeOf_deps {nodes : List SystemNode}
    (hids : (nodes.map SystemNode.id).Nodup)
    {t : Nat} (ht : t ∈ nodes.map SystemNode.id) :
    lookupDeps (origOf nodes) t = (nodeOf nodes t).deps := by
  obtain ⟨hid, hmem⟩ := nodeOf_mem ht
  have hpair : ((nodeOf nodes t).id, (nodeOf nodes t).deps) ∈ origOf nodes :=
    List.mem_map_of_mem _ hmem
  have h2 := lookupDeps_eq (origOf_keys_nodup hids) hpair
  simpa [hid] using h2

theorem lookupDeps_origOf_iff {nodes : List SystemNode}
    (hids : (nodes.map SystemNode.id).Nodup) {d m : Nat} :
    d ∈ lookupDeps (origOf nodes) m ↔ edgeRel nodes d m := by
  constructor
  · intro h
    unfold lookupDeps at h
    cases hfind : (origOf nodes).find? (fun p => p.1 == m) with
    | none => rw [hfind] at h; cases h
    | some p =>
      rw [hfind] at h
      have hpmem : p ∈ origOf nodes := List.mem_of_find?_eq_some hfind
      have hpkey : p.1 = m := by simpa using List.find?_some hfind
      obtain ⟨nd, hnd, he⟩ := List.mem_map.mp hpmem
      refine ⟨nd, hnd, ?_, ?_⟩
      · rw [← hpkey, ← he]
      · have hdeps : p.2 = nd.deps := by rw [← he]
        rw [← hdeps]
        exact h
  · rintro ⟨nd, hnd, hid, hdep⟩
    subst hid
    have hpair : (nd.id, nd.deps) ∈ origOf nodes := List.mem_map_of_mem _ hnd
    rw [lookupDeps_eq (origOf_keys_nodup hids) hpair]
    exact hdep

theorem transGen_exists_first {α : Type} {r : α → α → Prop} {a b : α}
    (h : Relation.TransGen r a b) : ∃ c, r a c := by
  induction h with
  | single h => exact ⟨_, h⟩
  | tail _ _ ih => exact ih

theorem transGen_exists_last {α : Type} {r : α → α → Prop} {a b : α}
    (h : Relation.TransGen r a b) : ∃ c, r c b := by
  induction h with
  | single h => exact ⟨_, h⟩
  | tail _ h _ => exact ⟨_, h⟩

theorem exists_transGen_cycle (r : Nat → Nat → Prop) :
    ∀ (s : Finset Nat), s.Nonempty → (∀ a ∈ s, ∃ d ∈ s, r d a) →
      ∃ a ∈ s, Relation.TransGen r a a := by
  intro s
  induction s using Finset.strongInduction with
  | _ s ih =>
    intro hne hpred
    classical
    obtain ⟨a, ha⟩ := hne
    obtain ⟨d, hd, hrda⟩ := hpred a ha
    by_cases haa : Relation.TransGen r a a
    · exact ⟨a, ha, haa⟩
    · have hd' : d ∈ s.filter (fun b => Relation.TransGen r b a) :=
        Finset.mem_filter.mpr ⟨hd, Relation.TransGen.single hrda⟩
      have hss : s.filter (fun b => Relation.TransGen r b a) ⊂ s :=
        Finset.filter_ssubset.mpr ⟨a, ha, haa⟩
      have hpred' : ∀ b ∈ s.filter (fun b => Relation.TransGen r b a),
          ∃ d2 ∈ s.filter (fun b => Relation.TransGen r b a), r d2 b := by
        intro b hb
        obtain ⟨hbs, hba⟩ := Finset.mem_filter.mp hb
        obtain ⟨d2, hd2, hrd2⟩ := hpred b hbs
        exact ⟨d2, Finset.mem_filter.mpr ⟨hd2, Relation.TransGen.head hrd2 hba⟩, hrd2⟩
      obtain ⟨b, hb, hbcyc⟩ := ih _ hss ⟨d, hd'⟩ hpred'
      exact ⟨b, (Finset.mem_filter.mp hb).1, hbcyc⟩

theorem sortSystems_final (nodes : List SystemNode)
    (hids : (nodes.map SystemNode.id).Nodup) :
    KahnInv (origOf nodes) (kahnRun (origOf nodes)).1 [] (kahnRun (origOf nodes)).2 ∧
    ∃ ext, (kahnRun (origOf nodes)).2 = initialQueue (origOf nodes) ++ ext :=
  kahnRun_inv _ (origOf_keys_nodup hids)

theorem allEmpty_props (nodes : List SystemNode)
    (hids : (nodes.map SystemNode.id).Nodup)
    (hempty : ((kahnRun (origOf nodes)).1.any (fun p => !p.2.isEmpty)) = false) :
    ((kahnRun (origOf nodes)).2.Nodup) ∧
    (∀ m, m ∈ (kahnRun (origOf nodes)).2 ↔ m ∈ nodes.map SystemNode.id) ∧
    (∀ m d, m ∈ (kahnRun (origOf nodes)).2 →
      d ∈ lookupDeps (origOf nodes) m → d ∈ (kahnRun (origOf nodes)).2) ∧
    (∀ m ∈ (kahnRun (origOf nodes)).2, m ∉ lookupDeps (origOf nodes) m) ∧
    (∀ (i j : Fin (kahnRun (origOf nodes)).2.length),
      (kahnRun (origOf nodes)).2.get i ∈
        lookupDeps (origOf nodes) ((kahnRun (origOf nodes)).2.get j) →
      (i : Nat) < (j : Nat)) := by
  obtain ⟨inv, _⟩ := sortSystems_final nodes hids
  have hall : ∀ p ∈ (kahnRun (origOf nodes)).1, p.2 = [] := by
    intro p hp
    have h := List.any_eq_false.mp hempty p hp
    simpa [List.isEmpty_iff] using h
  have hkeys : (kahnRun (origOf nodes)).1.map Prod.fst = nodes.map SystemNode.id := by
    rw [inv.keys, origOf_keys]
  have hLN : (kahnRun (origOf nodes)).2.Nodup := by
    have h := inv.nodupLS
    simpa using h
  have hmem : ∀ m, m ∈ (kahnRun (origOf nodes)).2 ↔ m ∈ nodes.map SystemNode.id := by
    intro m
    constructor
    · intro h
      have h2 := inv.popped_empty m h
      have h3 : m ∈ (kahnRun (origOf nodes)).1.map Prod.fst :=
        List.mem_map.mpr ⟨(m, []), h2, rfl⟩
      rwa [hkeys] at h3
    · intro h
      rw [← hkeys] at h
      obtain ⟨v, hv⟩ := exists_val_of_key_mem h
      have hv0 : v = [] := hall (m, v) hv
      rw [hv0] at hv
      rcases inv.empty_queued (m, []) hv rfl with h' | h'
      · exact h'
      · cases h'
  have hcov : ∀ m d, m ∈ (kahnRun (origOf nodes)).2 →
      d ∈ lookupDeps (origOf nodes) m → d ∈ (kahnRun (origOf nodes)).2 := by
    intro m d hm hd
    have h2 := inv.popped_empty m hm
    rcases inv.orig_cov (m, []) h2 d hd with h | h
    · cases h
    · exact h
  refine ⟨hLN, hmem, hcov, inv.nself, ?_⟩
  intro i j hij
  rcases Nat.lt_trichotomy (i : Nat) (j : Nat) with h | h | h
  · exact h
  · exfalso
    have hfe : i = j := Fin.ext h
    rw [hfe] at hij
    exact inv.nself _ (List.get_mem _ _ _) hij
  · exfalso
    have hpw := List.pairwise_iff_get.mp inv.pw j i (by exact h)
    exact hpw hij

theorem mapM_nodeOf (nodes : List SystemNode) :
    ∀ L : List Nat, (∀ t ∈ L, t ∈ nodes.map SystemNode.id) →
      (L.mapM (fun t =>
        match nodes.find? (fun node => node.id == t) with
        | some node => Except.ok node
        | none => Except.error (WorldError.notRegistered t))
        : Except WorldError (List SystemNode)) = Except.ok (L.map (nodeOf nodes)) := by
  intro L
  induction L with
  | nil =>
    intro _
    rfl
  | cons t L ih =>
    intro h
    have ht := h t (List.mem_cons_self _ _)
    have hs : (nodes.find? (fun x => x.id == t)).isSome := by
      rw [List.find?_isSome]
      obtain ⟨nd, hnd, he⟩ := List.mem_map.mp ht
      exact ⟨nd, hnd, by simp [he]⟩
    obtain ⟨nd, hnd⟩ := Option.isSome_iff_exists.mp hs
    rw [List.mapM_cons, ih (fun u hu => h u (List.mem_cons_of_mem _ hu))]
    simp [hnd, nodeOf]
    rfl

theorem sortSystems_eq_ok (nodes : List SystemNode)
    (hids : (nodes.map SystemNode.id).Nodup)
    (hempty : ((kahnRun (origOf nodes)).1.any (fun p => !p.2.isEmpty)) = false) :
    sortSystems nodes =
      Except.ok ((kahnRun (origOf nodes)).2.map (nodeOf nodes)) := by
  unfold sortSystems
  rw [mkGraph_eq hids, hempty]
  simp only [Bool.false_eq_true, if_false]
  apply mapM_nodeOf
  intro t ht
  exact ((allEmpty_props nodes hids hempty).2.1 t).mp ht

theorem sortSystems_eq_error (nodes : List SystemNode)
    (hne : ((kahnRun (mkGraph nodes)).1.any (fun p => !p.2.isEmpty)) = true) :
    sortSystems nodes = Except.error WorldError.cyclicDependency := by
  unfold sortSystems
  rw [hne]
  simp

theorem allEmpty_of_acyclic (nodes : List SystemNode)
    (hids : (nodes.map SystemNode.id).Nodup)
    (hdeps : ∀ nd ∈ nodes, nd.deps.Nodup)
    (hclosed : ∀ nd ∈ nodes, ∀ d ∈ nd.deps, ∃ m ∈ nodes, m.id = d)
    (hacyc : ∀ a, ¬ Relation.TransGen (edgeRel nodes) a a) :
    ((kahnRun (origOf nodes)).1.any (fun p => !p.2.isEmpty)) = false := by
  by_contra hne0
  have hne : ((kahnRun (origOf nodes)).1.any (fun p => !p.2.isEmpty)) = true :=
    eq_true_of_ne_false hne0
  obtain ⟨p0, hp0, hp0ne⟩ := List.any_eq_true.mp hne
  obtain ⟨inv, _⟩ := sortSystems_final nodes hids
  have hgk : ((kahnRun (origOf nodes)).1.map Prod.fst).Nodup := by
    rw [inv.keys]
    exact origOf_keys_nodup hids
  obtain ⟨_, hunpop⟩ := kahnRun_edges (origOf nodes) (by
    intro p hp
    obtain ⟨nd, hnd, he⟩ := List.mem_map.mp hp
    have : p.2 = nd.deps := by rw [← he]
    rw [this]
    exact hdeps nd hnd)
  classical
  set g := (kahnRun (origOf nodes)).1 with hg
  set L := (kahnRun (origOf nodes)).2 with hL
  set s : Finset Nat := (g.map Prod.fst).toFinset.filter (fun k => k ∉ L) with hs
  have hpred : ∀ a ∈ s, ∃ d ∈ s, edgeRel nodes d a := by
    intro a ha
    rw [hs, Finset.mem_filter, List.mem_toFinset] at ha
    obtain ⟨hak, haL⟩ := ha
    obtain ⟨es, hes⟩ := exists_val_of_key_mem hak
    have hesne : es ≠ [] := by
      intro hcon
      rcases inv.empty_queued (a, es) hes (by simpa using hcon) with h | h
      · exact haL h
      · cases h
    obtain ⟨d, hd⟩ := List.exists_mem_of_ne_nil es hesne
    have hdlook : d ∈ lookupDeps (origOf nodes) a := inv.cur_sub (a, es) hes d hd
    have hedge : edgeRel nodes d a := (lookupDeps_origOf_iff hids).mp hdlook
    have hdkeys : d ∈ g.map Prod.fst := by
      obtain ⟨nd, hnd, _, hddep⟩ := hedge
      obtain ⟨m2, hm2, hm2id⟩ := hclosed nd hnd d hddep
      rw [hg, inv.keys, origOf_keys, ← hm2id]
      exact List.mem_map_of_mem _ hm2
    have hdnL : d ∉ L := hunpop (a, es) hes d hd
    refine ⟨d, ?_, hedge⟩
    rw [hs, Finset.mem_filter, List.mem_toFinset]
    exact ⟨hdkeys, hdnL⟩
  have hsne : s.Nonempty := by
    refine ⟨p0.1, ?_⟩
    rw [hs, Finset.mem_filter, List.mem_toFinset]
    refine ⟨List.mem_map_of_mem _ hp0, ?_⟩
    intro hmL
    have h2 := inv.popped_empty p0.1 hmL
    have heq : p0.2 = [] := keyval_unique hgk (by simpa using hp0) h2
    simp [heq] at hp0ne
  obtain ⟨a, _, hcyca⟩ := exists_transGen_cycle (edgeRel nodes) s hsne hpred
  exact hacyc a hcyca

/-- Claim C2: for every duplicate-free registration set whose declared
dependency sets name registered systems and whose dependency relation is
acyclic, `sortSystems` succeeds, returning a permutation of the registered
nodes in which every system appears strictly after every system of its declared
dependency set. -/
theorem sortSystems_acyclic_sorts (nodes : List SystemNode)
    (hids : (nodes.map SystemNode.id).Nodup)
    (hdeps : ∀ nd ∈ nodes, nd.deps.Nodup)
    (hclosed : ∀ nd ∈ nodes, ∀ d ∈ nd.deps, ∃ m ∈ nodes, m.id = d)
    (hacyc : ∀ a, ¬ Relation.TransGen (edgeRel nodes) a a) :
    ∃ res, sortSystems nodes = Except.ok res ∧ res.Perm nodes ∧
      ∀ i j : Fin res.length, (res.get i).id ∈ (res.get j).deps →
        (i : Nat) < (j : Nat) := by
  have hempty := allEmpty_of_acyclic nodes hids hdeps hclosed hacyc
  obtain ⟨hLN, hmem, hcov, hnself, hord⟩ := allEmpty_props nodes hids hempty
  refine ⟨(kahnRun (origOf nodes)).2.map (nodeOf nodes),
    sortSystems_eq_ok nodes hids hempty, ?_, ?_⟩
  · have hperm : (kahnRun (origOf nodes)).2.Perm (nodes.map SystemNode.id) := by
      apply List.Subperm.antisymm
      · exact List.subperm_of_subset hLN (fun m hm => (hmem m).mp hm)
      · exact List.subperm_of_subset hids (fun m hm => (hmem m).mpr hm)
    have hmapid : (nodes.map SystemNode.id).map (nodeOf nodes) = nodes := by
      rw [List.map_map]
      have h2 : nodes.map (nodeOf nodes ∘ SystemNode.id) = nodes.map id :=
        List.map_congr_left fun nd hnd => nodeOf_eq hids hnd
      rw [h2, List.map_id]
    have hp2 := hperm.map (nodeOf nodes)
    rw [hmapid] at hp2
    exact hp2
  · intro i j hij
    have hiL : (i : Nat) < (kahnRun (origOf nodes)).2.length :=
      Nat.lt_of_lt_of_eq i.isLt (List.length_map _ _)
    have hjL : (j : Nat) < (kahnRun (origOf nodes)).2.length :=
      Nat.lt_of_lt_of_eq j.isLt (List.length_map _ _)
    have hgi : ((kahnRun (origOf nodes)).2.map (nodeOf nodes)).get i =
        nodeOf nodes ((kahnRun (origOf nodes)).2.get ⟨i, hiL⟩) := by
      simp [List.get_eq_getElem, List.getElem_map]
    have hgj : ((kahnRun (origOf nodes)).2.map (nodeOf nodes)).get j =
        nodeOf nodes ((kahnRun (origOf nodes)).2.get ⟨j, hjL⟩) := by
      simp [List.get_eq_getElem, List.getElem_map]
    rw [hgi, hgj] at hij
    have htiL : (kahnRun (origOf nodes)).2.get ⟨i, hiL⟩ ∈ nodes.map SystemNode.id :=
      (hmem _).mp (List.get_mem _ _ _)
    have htjL : (kahnRun (origOf nodes)).2.get ⟨j, hjL⟩ ∈ nodes.map SystemNode.id :=
      (hmem _).mp (List.get_mem _ _ _)
    have hidi : (nodeOf nodes ((kahnRun (origOf nodes)).2.get ⟨i, hiL⟩)).id =
        (kahnRun (origOf nodes)).2.get ⟨i, hiL⟩ := (nodeOf_mem htiL).1
    rw [hidi, ← nodeOf_deps hids htjL] at hij
    exact hord ⟨i, hiL⟩ ⟨j, hjL⟩ hij

theorem sortSystems_acyclic_sorts_witness :
    ∃ res, sortSystems [⟨1, []⟩, ⟨2, []⟩, ⟨3, [1, 2]⟩] = Except.ok res ∧
      res.Perm [⟨1, []⟩, ⟨2, []⟩, ⟨3, [1, 2]⟩] ∧
      ∀ i j : Fin res.length, (res.get i).id ∈ (res.get j).deps →
        (i : Nat) < (j : Nat) :=
  sortSystems_acyclic_sorts [⟨1, []⟩, ⟨2, []⟩, ⟨3, [1, 2]⟩] (by decide) (by decide)
    (by decide)
    (by
      intro a h
      obtain ⟨x, hx⟩ := transGen_exists_first h
      obtain ⟨y, hy⟩ := transGen_exists_last h
      simp [edgeRel] at hx hy
      omega)

theorem transGen_positions (nodes : List SystemNode)
    (hids : (nodes.map SystemNode.id).Nodup)
    (hempty : ((kahnRun (origOf nodes)).1.any (fun p => !p.2.isEmpty)) = false) :
    ∀ x y, Relation.TransGen (edgeRel nodes) x y →
      ∃ i j : Fin (kahnRun (origOf nodes)).2.length,
        (kahnRun (origOf nodes)).2.get i = x ∧ (kahnRun (origOf nodes)).2.get j = y ∧
        (i : Nat) < (j : Nat) := by
  obtain ⟨hLN, hmem, hcov, _, hord⟩ := allEmpty_props nodes hids hempty
  have hbase : ∀ x y, edgeRel nodes x y →
      ∃ i j : Fin (kahnRun (origOf nodes)).2.length,
        (kahnRun (origOf nodes)).2.get i = x ∧ (kahnRun (origOf nodes)).2.get j = y ∧
        (i : Nat) < (j : Nat) := by
    intro x y hxy
    have hyids : y ∈ nodes.map SystemNode.id := by
      obtain ⟨nd, hnd, hid, _⟩ := hxy
      rw [← hid]
      exact List.mem_map_of_mem _ hnd
    have hyL : y ∈ (kahnRun (origOf nodes)).2 := (hmem y).mpr hyids
    have hlk : x ∈ lookupDeps (origOf nodes) y := (lookupDeps_origOf_iff hids).mpr hxy
    have hxL : x ∈ (kahnRun (origOf nodes)).2 := hcov y x hyL hlk
    obtain ⟨i, hi⟩ := List.get_of_mem hxL
    obtain ⟨j, hj⟩ := List.get_of_mem hyL
    refine ⟨i, j, hi, hj, ?_⟩
    apply hord
    rw [hi, hj]
    exact hlk
  intro x y hxy
  induction hxy with
  | single h => exact hbase _ _ h
  | tail _ hby ih =>
    obtain ⟨i, j, hi, hj, hij⟩ := ih
    obtain ⟨j2, k, hj2, hk, hjk⟩ := hbase _ _ hby
    have hjj : j = j2 := hLN.get_inj_iff.mp (by rw [hj, hj2])
    refine ⟨i, k, hi, hk, ?_⟩
    rw [hjj] at hij
    omega

theorem sortSystems_cyclic_error (nodes : List SystemNode)
    (hids : (nodes.map SystemNode.id).Nodup)
    (a : Nat) (hcyc : Relation.TransGen (edgeRel nodes) a a) :
    sortSystems nodes = Except.error WorldError.cyclicDependency := by
  cases hb : ((kahnRun (mkGraph nodes)).1.any (fun p => !p.2.isEmpty)) with
  | true => exact sortSystems_eq_error nodes hb
  | false =>
    exfalso
    rw [mkGraph_eq hids] at hb
    obtain ⟨hLN, _, _, _, _⟩ := allEmpty_props nodes hids hb
    obtain ⟨i, j, hi, hj, hij⟩ := transGen_positions nodes hids hb a a hcyc
    have hieqj : i = j := hLN.get_inj_iff.mp (by rw [hi, hj])
    rw [hieqj] at hij
    omega

/-- Claim C3: when the declared dependency relation of the registered systems
contains a cycle, `maintain` — whose only schedule mutation is the assignment
`sortedSystems = sortSystems(sortedSystems)` — throws the cyclic-dependency
error, and the world observed after the failed call, in particular the
previously computed `sortedSystems`, is exactly the world before it. -/
theorem maintain_cyclic_unchanged (w : World)
    (hids : (w.sortedSystems.map SystemNode.id).Nodup)
    (a : Nat) (hcyc : Relation.TransGen (edgeRel w.sortedSystems) a a) :
    maintain w = (w, some WorldError.cyclicDependency) := by
  unfold maintain
  rw [sortSystems_cyclic_error w.sortedSystems hids a hcyc]

theorem maintain_cyclic_unchanged_witness :
    maintain ⟨[], [], [⟨1, [2]⟩, ⟨2, [1]⟩], false, false⟩ =
      (⟨[], [], [⟨1, [2]⟩, ⟨2, [1]⟩], false, false⟩, some WorldError.cyclicDependency) :=
  maintain_cyclic_unchanged ⟨[], [], [⟨1, [2]⟩, ⟨2, [1]⟩], false, false⟩ (by decide) 1
    (Relation.TransGen.head ⟨⟨2, [1]⟩, by simp, rfl, by simp⟩
      (Relation.TransGen.single ⟨⟨1, [2]⟩, by simp, rfl, by simp⟩))

/-- Claim C9 counterexample: a single registered system (id 1) declaring a
dependency on the never-registered identity 99 makes `sortSystems` fail with
the cyclic-dependency error ("The system dependency graph is cyclic!"), not
with the not-registered error (the spec's UnresolvedDependencyReference) the
claim names: the dangling edge is never removed, so the final edge check fires
before the not-registered lookup is ever reached. -/
theorem sortSystems_unregistered_counterexample :
    sortSystems [⟨1, [99]⟩] = Except.error WorldError.cyclicDependency := rfl

/-- Claim C9 (amended): a declared dependency on a never-registered identity
does make `sortSystems` fail at sort time rather than being silently ignored,
but the error raised is the cyclic-dependency error, not the not-registered
(UnresolvedDependencyReference) error. -/
theorem sortSystems_unregistered_dep_error (nodes : List SystemNode)
    (hids : (nodes.map SystemNode.id).Nodup)
    (nd : SystemNode) (hnd : nd ∈ nodes) (d : Nat) (hd : d ∈ nd.deps)
    (hunreg : ∀ m ∈ nodes, m.id ≠ d) :
    sortSystems nodes = Except.error WorldError.cyclicDependency := by
  cases hb : ((kahnRun (mkGraph nodes)).1.any (fun p => !p.2.isEmpty)) with
  | true => exact sortSystems_eq_error nodes hb
  | false =>
    exfalso
    rw [mkGraph_eq hids] at hb
    obtain ⟨_, hmem, hcov, _, _⟩ := allEmpty_props nodes hids hb
    have hndL : nd.id ∈ (kahnRun (origOf nodes)).2 :=
      (hmem _).mpr (List.mem_map_of_mem _ hnd)
    have hdlk : d ∈ lookupDeps (origOf nodes) nd.id :=
      (lookupDeps_origOf_iff hids).mpr ⟨nd, hnd, rfl, hd⟩
    have hdL : d ∈ (kahnRun (origOf nodes)).2 := hcov _ _ hndL hdlk
    obtain ⟨m2, hm2, hm2id⟩ := List.mem_map.mp ((hmem d).mp hdL)
    exact hunreg m2 hm2 hm2id

theorem sortSystems_unregistered_dep_error_witness :
    sortSystems [⟨5, [7]⟩] = Except.error WorldError.cyclicDependency :=
  sortSystems_unregistered_dep_error [⟨5, [7]⟩] (by decide) ⟨5, [7]⟩ (by simp) 7
    (by simp) (by decide)

/-- Claim C6 counterexample: registration order is A (id 1, depends on B),
B (id 2, no deps), C (id 3, no deps). After B is emitted, A and C both
simultaneously have zero remaining unresolved dependencies, and A was
registered before C — yet the algorithm emits C before A, because the ready
queue is a FIFO (A joins it only when freed, behind the already-queued C), not
a priority queue by registration order. -/
theorem sortSystems_fifo_counterexample :
    sortSystems [⟨1, [2]⟩, ⟨2, []⟩, ⟨3, []⟩] =
      Except.ok [⟨2, []⟩, ⟨3, []⟩, ⟨1, [2]⟩] := rfl

/-- Claim C6 (amended): the tie-break by registration order holds for systems
that become ready at the same moment — in particular, any two systems with
empty declared dependency sets enter the initial ready queue in registration
order, the queue is FIFO, and so they appear in the output in registration
order; the output is a deterministic function of the registration sequence
because the whole algorithm is. A system freed later is emitted after
already-queued systems even if it was registered earlier. -/
theorem sortSystems_noDeps_output_order (nodes : List SystemNode)
    (hids : (nodes.map SystemNode.id).Nodup)
    (res : List SystemNode) (hok : sortSystems nodes = Except.ok res)
    (x y : SystemNode) (hx : x.deps = []) (hy : y.deps = [])
    (l1 l2 : List SystemNode) (hsplit : nodes = l1 ++ x :: l2) (hyl2 : y ∈ l2) :
    ∃ r1 r2, res = r1 ++ x :: r2 ∧ y ∈ r2 := by
  cases hb : ((kahnRun (mkGraph nodes)).1.any (fun p => !p.2.isEmpty)) with
  | true =>
    rw [sortSystems_eq_error nodes hb] at hok
    cases hok
  | false =>
    have hb2 := hb
    rw [mkGraph_eq hids] at hb2
    have hok2 := sortSystems_eq_ok nodes hids hb2
    rw [hok] at hok2
    have hres : res = (kahnRun (origOf nodes)).2.map (nodeOf nodes) := by
      injection hok2
    obtain ⟨_, ext, hLe⟩ := sortSystems_final nodes hids
    have hq : initialQueue (origOf nodes) =
        ((origOf l1).filter (fun p => p.2.isEmpty)).map Prod.fst ++ x.id ::
        ((origOf l2).filter (fun p => p.2.isEmpty)).map Prod.fst := by
      rw [hsplit]
      unfold initialQueue origOf
      simp [List.filter_append, List.filter_cons, hx]
    have hxmem : x ∈ nodes := by
      rw [hsplit]
      exact List.mem_append_right _ (List.mem_cons_self _ _)
    have hymem : y ∈ nodes := by
      rw [hsplit]
      exact List.mem_append_right _ (List.mem_cons_of_mem _ hyl2)
    have hyB : y.id ∈ ((origOf l2).filter (fun p => p.2.isEmpty)).map Prod.fst := by
      apply List.mem_map.mpr
      exact ⟨(y.id, y.deps),
        List.mem_filter.mpr ⟨List.mem_map_of_mem _ hyl2, by simp [hy]⟩, rfl⟩
    refine ⟨(((origOf l1).filter (fun p => p.2.isEmpty)).map Prod.fst).map (nodeOf nodes),
      ((((origOf l2).filter (fun p => p.2.isEmpty)).map Prod.fst) ++ ext).map (nodeOf nodes),
      ?_, ?_⟩
    · rw [hres, hLe, hq]
      have hassoc :
          (((origOf l1).filter (fun p => p.2.isEmpty)).map Prod.fst ++ x.id ::
            ((origOf l2).filter (fun p => p.2.isEmpty)).map Prod.fst) ++ ext =
          ((origOf l1).filter (fun p => p.2.isEmpty)).map Prod.fst ++ x.id ::
            (((origOf l2).filter (fun p => p.2.isEmpty)).map Prod.fst ++ ext) := by
        simp
      rw [hassoc, List.map_append, List.map_cons, nodeOf_eq hids hxmem]
    · apply List.mem_map.mpr
      exact ⟨y.id, List.mem_append_left _ hyB, nodeOf_eq hids hymem⟩

theorem sortSystems_noDeps_output_order_witness :
    ∃ r1 r2, [(⟨4, []⟩ : SystemNode), ⟨5, []⟩] = r1 ++ (⟨4, []⟩ : SystemNode) :: r2 ∧
      (⟨5, []⟩ : SystemNode) ∈ r2 :=
  sortSystems_noDeps_output_order [⟨4, []⟩, ⟨5, []⟩] (by decide)
    [⟨4, []⟩, ⟨5, []⟩] rfl ⟨4, []⟩ ⟨5, []⟩ rfl rfl [] [⟨5, []⟩] rfl (by simp)

theorem skip_condition_iff (e : Entity) (p : Nat × EComponentRequirement) :
    ¬(((e.hasComponent p.1 && p.2 == EComponentRequirement.UNSET) ||
      (!e.hasComponent p.1 && p.2 != EComponentRequirement.UNSET)) = true) ↔
    requirementSatisfied e p := by
  rcases p with ⟨c, r⟩
  cases r <;> simp [requirementSatisfied]

/-- Claim C5: an entity is in the result of the `getEntities` filter iff it is
in the input list and every (component type, requirement) pair of the query is
satisfied (presence for the access values, absence for `UNSET`; component types
outside the query are unconstrained), and the result preserves the relative
order of the input list (it is a sublist of it). -/
theorem getEntities_filter_spec (entities : List Entity) (q : TComponentQuery) :
    (∀ e, e ∈ getEntities entities (some q) ↔
      e ∈ entities ∧ ∀ p ∈ q, requirementSatisfied e p) ∧
    (getEntities entities (some q)).Sublist entities := by
  constructor
  · intro e
    simp only [getEntities, List.mem_filter, Bool.not_eq_true', List.any_eq_false]
    exact and_congr_right fun _ => forall₂_congr fun p _ => skip_condition_iff e p
  · exact List.filter_sublist _

/-- Claim C7: filtering the result of a `getEntities` query again with the same
query returns the same sequence unchanged (idempotence); this also covers the
no-query case, where the whole entity list is returned. -/
theorem getEntities_idempotent (entities : List Entity) (q : Option TComponentQuery) :
    getEntities (getEntities entities q) q = getEntities entities q := by
  cases q with
  | none => rfl
  | some q => simp [getEntities, List.filter_filter]

/-- Claim C1: on the spec's scenario — systems A (id 1) and B (id 2) without
dependencies followed by C (id 3) with dependencies, in sorted order —
`getScheduledRunSystems` returns the never-populated `compScheduler`, i.e. the
empty group list, even though the `depScheduler` it computes and discards holds
the intended grouping `[{A, B}, {C}]` (plus the trailing empty group the loop
leaves behind). The claimed schedule `[{A, B}, {C}]` is therefore never
returned: dispatch executes zero systems. -/
theorem getScheduledRunSystems_scenario_empty :
    getScheduledRunSystems [⟨1, false⟩, ⟨2, false⟩, ⟨3, true⟩] = [] ∧
    depSchedule [⟨1, false⟩, ⟨2, false⟩, ⟨3, true⟩] = [[1, 2], [3], []] :=
  ⟨rfl, rfl⟩

/-- Claim C4: registering a system whose constructor identity already has a
node in `sortedSystems` fails with the duplicate-system error, and the world
observed after the failed call is exactly the world before it (the duplicate
check precedes every mutation). -/
theorem registerSystemQuick_duplicate (w : World) (sysId : Nat) (deps : List Nat)
    (h : ∃ nd ∈ w.sortedSystems, nd.id = sysId) :
    registerSystemQuick w sysId deps = Except.error (WorldError.duplicateSystem sysId) ∧
    registerSystemQuickRun w sysId deps = w := by
  have hfind : (w.sortedSystems.find? (fun node => node.id == sysId)).isSome := by
    obtain ⟨nd, hmem, hid⟩ := h
    exact List.find?_isSome.mpr ⟨nd, hmem, by simp [hid]⟩
  exact ⟨by simp [registerSystemQuick, hfind],
    by simp [registerSystemQuickRun, registerSystemQuick, hfind]⟩

theorem registerSystemQuick_duplicate_witness :
    registerSystemQuick ⟨[], [7], [⟨7, []⟩], false, false⟩ 7 [] =
      Except.error (WorldError.duplicateSystem 7) ∧
    registerSystemQuickRun ⟨[], [7], [⟨7, []⟩], false, false⟩ 7 [] =
      ⟨[], [7], [⟨7, []⟩], false, false⟩ :=
  registerSystemQuick_duplicate ⟨[], [7], [⟨7, []⟩], false, false⟩ 7 []
    ⟨⟨7, []⟩, by simp, rfl⟩

/-- Claim C8: calling `run` while the run promise is set fails with the
concurrent-run error (and, being a rejection before any assignment, leaves the
running state alone); once `stopRun` has lowered the flag, the next `mainLoop`
iteration starts no further step, clears the run promise, and a subsequent
`run` call succeeds. -/
theorem run_conflict_and_stop (w : World) (sched : List (List Nat))
    (h : w.runPromiseActive = true) :
    run w = Except.error WorldError.concurrentRunConflict ∧
    (mainLoopIter (stopRun w) sched).2 = none ∧
    (mainLoopIter (stopRun w) sched).1.runPromiseActive = false ∧
    (∃ w2, run ((mainLoopIter (stopRun w) sched).1) = Except.ok w2) :=
  ⟨by simp [run, h], by simp [mainLoopIter, stopRun],
    by simp [mainLoopIter, stopRun],
    ⟨{ w with runPromiseActive := true, shouldRunSystems := true },
      by simp [run, mainLoopIter, stopRun]⟩⟩

theorem run_conflict_and_stop_witness :
    run ⟨[], [], [], true, true⟩ = Except.error WorldError.concurrentRunConflict ∧
    (mainLoopIter (stopRun ⟨[], [], [], true, true⟩) [[1]]).2 = none ∧
    (mainLoopIter (stopRun ⟨[], [], [], true, true⟩) [[1]]).1.runPromiseActive = false ∧
    (∃ w2, run ((mainLoopIter (stopRun ⟨[], [], [], true, true⟩) [[1]]).1) = Except.ok w2) :=
  run_conflict_and_stop ⟨[], [], [], true, true⟩ [[1]] rfl

/-- Claim C10: adding an entity that the world's entity array already includes
leaves the world (in particular its entity list) unchanged, so an entity is
stored at most once. -/
theorem addEntity_already_contained (w : World) (e : Entity) (h : e ∈ w.entities) :
    addEntity w e = w := by
  have hc : w.entities.contains e = true := by
    simpa [List.contains] using h
  simp only [addEntity]
  rw [if_pos hc]

theorem addEntity_already_contained_witness :
    addEntity ⟨[⟨4, [1]⟩], [], [], false, false⟩ ⟨4, [1]⟩ =
      ⟨[⟨4, [1]⟩], [], [], false, false⟩ :=
  addEntity_already_contained ⟨[⟨4, [1]⟩], [], [], false, false⟩ ⟨4, [1]⟩ (by simp)

end SimEcs
